import Mathlib

/-
Verification of the synchronized state-file layer of pytables-to-json.

The Python source (src/pytables-to-json.py) defines two backends for
structured metadata records:

  * a legacy PyTables/HDF5 backend (TreantFileHDF5, GroupFileHDF5,
    SimFileHDF5), storing each field family in a fixed-schema table, and
  * a current serialized backend (FileSerial / TreantFile / GroupFile /
    SimFile), holding the whole record as one nested dict that is pulled
    from and pushed to disk around every operation.

This file shallowly embeds the record data model and the operations the
claims refer to.  Pure record manipulations become Lean functions on
explicit record structures; the `_read`/`_write`/`_pull`/`_pull_push`
decorator machinery becomes explicit state-passing functions; calls that
can raise become `Except`-valued functions.  Python dicts are modelled
as association lists with in-place update of the first (unique) key,
matching dict assignment semantics; Python sets are modelled by a
deduplication function (iteration order of a set is unspecified, and no
claim depends on it).  `os.path.abspath`/`os.path.relpath` are external
library calls; they are abstracted as an explicit `OsPath` record of
functions, and theorems quantify over it.
-/

/-- A Python scalar value admissible as a tag or category value in the
serialized backend (`isinstance(v, (int, float, string_types, bool)) or
v is None`).  `pyOther` stands for any non-admissible value; it carries
the string produced by Python `str()` on it.  Floats are outside this
embedding; no claim mentions them. -/
inductive PyVal where
  | pyInt (n : Int)
  | pyStr (s : String)
  | pyBool (b : Bool)
  | pyNone
  | pyOther (s : String)
deriving DecidableEq, Repr

/-- Python `str()` on a `PyVal` (`str(5) = "5"`, `str(True) = "True"`,
`str(None) = "None"`). -/
def pyStrOf : PyVal → String
  | .pyInt n => toString n
  | .pyStr s => s
  | .pyBool true => "True"
  | .pyBool false => "False"
  | .pyNone => "None"
  | .pyOther s => s

/-- The admissibility test used by the serialized backend:
`isinstance(v, (int, float, string_types, bool)) or v is None`. -/
def isTagType : PyVal → Bool
  | .pyOther _ => false
  | _ => true

/-- Python exceptions raised by the embedded operations.  `ioError`
models `IOError`/`OSError` (missing file), `valueError` models
`ValueError` (including JSON parse failures and the typed conflict
raised by `rename_universe`), `keyError` models `KeyError`,
`noSuchNodeError` models `tables.NoSuchNodeError`. -/
inductive PyErr where
  | ioError
  | valueError
  | keyError
  | noSuchNodeError
deriving DecidableEq, Repr

/-- One element of a stored selection: either a selection-expression
string or a list of integer atom indices (`SimFile.add_selection` keeps
strings as-is and converts numpy index arrays with `tolist()`). -/
inductive SelItem where
  | strSel (s : String)
  | idxSel (l : List Int)
deriving DecidableEq, Repr

/-- Keys of an association list modelling a Python dict. -/
def keysOf {α : Type} (l : List (String × α)) : List String :=
  l.map Prod.fst

/-- Python `d[k]` as a total lookup: value of the first entry with key
`k` (keys of a real dict are unique). -/
def lookupKey {α : Type} (k : String) : List (String × α) → Option α
  | [] => none
  | kv :: rest => if kv.1 = k then some kv.2 else lookupKey k rest

/-- In-place update of the first entry with key `k` (Python
`d[k] = v` when `k` is already present: the entry keeps its position). -/
def updFirst {α : Type} (k : String) (v : α) : List (String × α) → List (String × α)
  | [] => []
  | kv :: rest => if kv.1 = k then (k, v) :: rest else kv :: updFirst k v rest

/-- Python `d.pop(k)` / `del d[k]`: remove the first entry with key `k`. -/
def eraseKey {α : Type} (k : String) : List (String × α) → List (String × α)
  | [] => []
  | kv :: rest => if kv.1 = k then rest else kv :: eraseKey k rest

/-- Python `d[k] = v`: update in place when `k` is present, append a new
entry otherwise. -/
def dictInsert {α : Type} (l : List (String × α)) (k : String) (v : α) : List (String × α) :=
  if k ∈ keysOf l then updFirst k v l else l ++ [(k, v)]

/-- Number of entries with key `k`. -/
def countKey {α : Type} (l : List (String × α)) (k : String) : Nat :=
  (keysOf l).count k

/-- `os.path.abspath` and `os.path.relpath` are external library
functions; the embedding abstracts them as an arbitrary pair of
functions, with `relpath basedir location` standing for
`os.path.relpath(basedir, location)`. -/
structure OsPath where
  abspath : String → String
  relpath : String → String → String

/-- A concrete `OsPath` used to evaluate theorems on explicit inputs. -/
def osW : OsPath :=
  { abspath := fun s => "/abs/" ++ s
    relpath := fun s l => "rel:" ++ s ++ ":" ++ l }

/-- One member row of a group record: the serialized backend stores the
list `[uuid, treanttype, abs, rel]`, the legacy backend the columns
`uuid`/`treanttype`/`abspath`/`relCont`.  Both carry the same four
strings, so one structure serves both embeddings. -/
structure Member where
  uuid : String
  treanttype : String
  abs : String
  rel : String
deriving DecidableEq, Repr

/-- The serialized backend's base record, as built by
`TreantFile._init_record`: empty tag list and empty category dict. -/
structure TreantRec where
  tags : List PyVal := []
  categories : List (String × PyVal) := []
deriving DecidableEq, Repr

/-- A group-kind record (`GroupFile._init_record` adds an empty member
list). -/
structure GroupRec where
  tags : List PyVal := []
  categories : List (String × PyVal) := []
  members : List Member := []
deriving DecidableEq, Repr

/-- One universe dict of the serialized backend.  Each field is wrapped
in `Option` to record whether the corresponding dict key is present
(`SimFile.add_universe` checks `'sels' not in udict` and
`'resnums' not in udict`); the value of the `resnums` key may itself be
Python `None`, hence the nested `Option`. -/
structure UDef where
  top : Option (String × String) := none
  traj : Option (List (String × String)) := none
  sels : Option (List (String × List SelItem)) := none
  resnums : Option (Option (List Int)) := none
deriving DecidableEq, Repr

/-- A simulation-kind record of the serialized backend
(`SimFile._init_record`): the `mds` sub-dict's `universes` and
`default` keys are flattened into fields (the occasional `mds.version`
key is not touched by any claim and is omitted). -/
structure SimRec where
  tags : List PyVal := []
  categories : List (String × PyVal) := []
  universes : List (String × UDef) := []
  default : Option String := none
deriving DecidableEq, Repr

/-- One universe of the legacy HDF5 backend, as laid out by
`SimFileHDF5.add_universe`: a `topology` table with one path row, a
`trajectory` table of path rows, a `selections` group of named arrays,
and an optional `resnums` table. -/
structure HUniv where
  topology : String × String
  trajectory : List (String × String)
  selections : List (String × List SelItem)
  resnums : Option (List Int)
deriving DecidableEq, Repr

/-- `TreantFile._init_record`. -/
def treantInit : TreantRec := {}

/-- `GroupFile._init_record`. -/
def groupInit : GroupRec := {}

/-- `SimFile._init_record`. -/
def simInit : SimRec := {}

/-- Python `set(...)` of `PyVal`s: deduplicate (membership by equality;
a set's iteration order is unspecified, and the claims proved below do
not depend on the order chosen here). -/
def pySet : List PyVal → List PyVal
  | [] => []
  | a :: rest =>
    let r := pySet rest
    if a ∈ r then r else a :: r

/-- Python `set(...)` of strings. -/
def strSet : List String → List String
  | [] => []
  | a :: rest =>
    let r := strSet rest
    if a ∈ r then r else a :: r

/-- `TreantFile.add_tags` (serialized backend), acting on the pulled
record: filter to admissible types, build a set, drop tags already
present, extend the stored list. -/
def TreantFile.add_tags (r : TreantRec) (tags : List PyVal) : TreantRec :=
  let ts := pySet (tags.filter isTagType)
  let ts2 := ts.filter (fun t => decide (t ∉ r.tags))
  { r with tags := r.tags ++ ts2 }

/-- `TreantFile.add_categories` (serialized backend): each admissible
value is stored under its key, raw (no `str()` coercion); an existing
key is overwritten in place. -/
def TreantFile.add_categories (r : TreantRec) (cats : List (String × PyVal)) : TreantRec :=
  { r with categories :=
      (cats.foldl (fun acc kv => if isTagType kv.2 then dictInsert acc kv.1 kv.2 else acc)
        r.categories) }

/-- `GroupFile.add_member` (serialized backend): append a new member
row when the uuid is not yet present; when it is present, do nothing
(the paths of the stored row are left untouched). -/
def GroupFile.add_member (os : OsPath) (loc : String) (r : GroupRec)
    (uuid treanttype basedir : String) : GroupRec :=
  let uuids := r.members.map (fun m => m.uuid)
  if uuid ∈ uuids then r
  else { r with members :=
          (r.members ++
           [{ uuid := uuid, treanttype := treanttype,
              abs := os.abspath basedir, rel := os.relpath basedir loc }]) }

/-- Python `list.pop(i)` (the removed element discarded). -/
def popAt {α : Type} (l : List α) (i : Nat) : List α :=
  l.take i ++ l.drop (i + 1)

/-- The deletion loop shared by `del_member`/`del_tags`/
`del_categories`: walk the sorted index list, removing position
`i - j` where `j` counts the entries already removed. -/
def removeShifted {α : Type} : List α → List Nat → Nat → List α
  | cur, [], _ => cur
  | cur, i :: rest, j => removeShifted (popAt cur (i - j)) rest (j + 1)

/-- The index-collection loop (`for i, member in enumerate(...)`):
positions of the elements satisfying `P`, counting from `i`. -/
def matchIdx {α : Type} (P : α → Bool) : List α → Nat → List Nat
  | [], _ => []
  | a :: rest, i => if P a then i :: matchIdx P rest (i + 1) else matchIdx P rest (i + 1)

/-- Insertion of a value into a sorted list, for `list.sort()`. -/
def insertSorted (a : Nat) : List Nat → List Nat
  | [] => [a]
  | b :: rest => if a ≤ b then a :: b :: rest else b :: insertSorted a rest

/-- Python `list.sort()` (insertion sort; stability is irrelevant for
the `Nat` index lists it is applied to). -/
def isort : List Nat → List Nat
  | [] => []
  | a :: rest => insertSorted a (isort rest)

/-- `GroupFile.del_member` (serialized backend): with `all=True` clear
the member list; otherwise collect the positions whose uuid is in the
given set, sort them, and pop them with the `i - j` shift. -/
def GroupFile.del_member (r : GroupRec) (uuid : List String) (purge : Bool) : GroupRec :=
  if purge then { r with members := [] }
  else
    let uuids := strSet uuid
    let memberlist := matchIdx (fun m => decide (m.uuid ∈ uuids)) r.members 0
    { r with members := removeShifted r.members (isort memberlist) 0 }

/-- `SimFile.update_default` (serialized backend): store the given name
(or Python `None`) unconditionally. -/
def SimFile.update_default (r : SimRec) (univ : Option String) : SimRec :=
  { r with default := univ }

/-- `SimFile.get_default` (serialized backend). -/
def SimFile.get_default (r : SimRec) : Option String :=
  r.default

/-- Python truthiness of the stored default (`if not
self._record['mds']['default']`): `None` and the empty string are
falsy. -/
def isFalsy : Option String → Bool
  | none => true
  | some s => s.isEmpty

/-- `SimFile.add_universe` (serialized backend): create the universe
dict if absent, overwrite its `top` and `traj` entries, create `sels`
and `resnums` only when the keys are missing, and make this universe
the default when no default is set. -/
def SimFile.add_universe (os : OsPath) (loc : String) (r : SimRec)
    (univ topology : String) (trajectory : List String) : SimRec :=
  let d0 : UDef := match lookupKey univ r.universes with
    | some d => d
    | none => {}
  let newsels : Option (List (String × List SelItem)) :=
    match d0.sels with
    | some s => some s
    | none => some []
  let newresnums : Option (Option (List Int)) :=
    match d0.resnums with
    | some x => some x
    | none => some none
  let d1 : UDef :=
    { top := some (os.abspath topology, os.relpath topology loc)
      traj := some (trajectory.map (fun s => (os.abspath s, os.relpath s loc)))
      sels := newsels
      resnums := newresnums }
  { r with
    universes := dictInsert r.universes univ d1
    default := (if isFalsy r.default then some univ else r.default) }

/-- `SimFile.del_universe` (serialized backend): `del universes[u]`,
raising `KeyError` when the universe is absent. -/
def SimFile.del_universe (r : SimRec) (univ : String) : Except PyErr SimRec :=
  if univ ∈ keysOf r.universes then
    Except.ok { r with universes := eraseKey univ r.universes }
  else Except.error PyErr.keyError

/-- `SimFile.rename_universe` (serialized backend): refuse with
`ValueError` when the new name is taken (before touching the record);
otherwise pop the old entry and append it under the new name. -/
def SimFile.rename_universe (r : SimRec) (univ newname : String) : Except PyErr SimRec :=
  if newname ∈ keysOf r.universes then Except.error PyErr.valueError
  else match lookupKey univ r.universes with
    | none => Except.error PyErr.keyError
    | some d => Except.ok { r with universes := eraseKey univ r.universes ++ [(newname, d)] }

/-- `TreantFileHDF5.add_tags` (legacy backend): the tags table holds
one string per row; the new tags are `set(str(t) for t in tags)` minus
the rows already present, appended. -/
def TreantFileHDF5.add_tags (rows : List String) (tags : List PyVal) : List String :=
  let ts := strSet (tags.map pyStrOf)
  let ts2 := ts.filter (fun t => decide (t ∉ rows))
  rows ++ ts2

/-- The row-update pass of `TreantFileHDF5.add_categories`: for each
existing row whose key is among the given categories, overwrite the
row's value with `str()` of the given value and pop the key; returns
the updated rows and the categories that matched no row. -/
def hdf5CatPass : List (String × String) → List (String × PyVal) →
    List (String × String) × List (String × PyVal)
  | [], cats => ([], cats)
  | kv :: rest, cats =>
    match lookupKey kv.1 cats with
    | some v =>
      let out := hdf5CatPass rest (eraseKey kv.1 cats)
      ((kv.1, pyStrOf v) :: out.1, out.2)
    | none =>
      let out := hdf5CatPass rest cats
      (kv :: out.1, out.2)

/-- `TreantFileHDF5.add_categories` (legacy backend): update matching
rows in place, then append the remaining keys with `str()`-coerced
values. -/
def TreantFileHDF5.add_categories (rows : List (String × String))
    (cats : List (String × PyVal)) : List (String × String) :=
  let p := hdf5CatPass rows cats
  p.1 ++ p.2.map (fun kv => (kv.1, pyStrOf kv.2))

/-- Update of the first member row matching a uuid (the
`table.where` hit used by `GroupFileHDF5.add_member`, which updates
`rownum[0]`): only the two path columns change. -/
def hdf5UpdateFirstMember (uuid newabs newrel : String) : List Member → List Member
  | [] => []
  | m :: rest =>
    if m.uuid = uuid then { m with abs := newabs, rel := newrel } :: rest
    else m :: hdf5UpdateFirstMember uuid newabs newrel rest

/-- `GroupFileHDF5.add_member` (legacy backend): when the uuid is
already present, overwrite the stored row's `abspath`/`relCont` with the
paths derived from the given basedir; otherwise append a full new row. -/
def GroupFileHDF5.add_member (os : OsPath) (loc : String) (rows : List Member)
    (uuid treanttype basedir : String) : List Member :=
  if uuid ∈ rows.map (fun m => m.uuid) then
    hdf5UpdateFirstMember uuid (os.abspath basedir) (os.relpath basedir loc) rows
  else rows ++ [{ uuid := uuid, treanttype := treanttype,
                  abs := os.abspath basedir, rel := os.relpath basedir loc }]

/-- `GroupFileHDF5.del_member` (legacy backend): same index-collection
and shifted positional removal as the serialized variant, with the
PyTables special case that removing every row is done by recreating the
table empty. -/
def GroupFileHDF5.del_member (rows : List Member) (uuid : List String) (purge : Bool) :
    List Member :=
  if purge then []
  else
    let uuids := strSet uuid
    let rowlist := matchIdx (fun m => decide (m.uuid ∈ uuids)) rows 0
    if rowlist.length = rows.length then []
    else removeShifted rows (isort rowlist) 0

/-- Modelled from the spec: the legacy `default` table cell is a fixed
width string column; storing Python `None` into it goes through the
parsing library's string conversion, so the cell holds the literal
string `"None"` (spec section 6: the `default` section is "one row,
string <=55 or \x22None\x22").  The writing code itself
(`SimFileHDF5.update_default`) assigns `universe` to the cell in both
of its branches. -/
def hdf5DefaultCell : Option String → String
  | none => "None"
  | some s => s

/-- `SimFileHDF5.update_default` (legacy backend): both the
existing-table branch and the create-table branch store the converted
cell; the table exists afterwards. -/
def SimFileHDF5.update_default (_table : Option String) (univ : Option String) :
    Option String :=
  some (hdf5DefaultCell univ)

/-- `SimFileHDF5.get_default` (legacy backend): read the cell, raising
if the table is missing, and translate the literal string `"None"` to
Python `None`. -/
def SimFileHDF5.get_default (table : Option String) : Except PyErr (Option String) :=
  match table with
  | none => Except.error PyErr.noSuchNodeError
  | some cell => Except.ok (if cell = "None" then none else some cell)

/-- `SimFileHDF5.add_universe` (legacy backend): a fresh universe gets
its group, topology and trajectory tables and an empty selections
group; re-adding an existing universe removes and recreates only the
topology and trajectory tables (the `create_group` for `selections`
raises `NodeError` and is passed over, and the `resnums` table is not
touched). -/
def SimFileHDF5.add_universe (os : OsPath) (loc : String) (univs : List (String × HUniv))
    (univ topology : String) (trajectory : List String) : List (String × HUniv) :=
  let newtop := (os.abspath topology, os.relpath topology loc)
  let newtraj := trajectory.map (fun s => (os.abspath s, os.relpath s loc))
  match lookupKey univ univs with
  | none => univs ++ [(univ,
      { topology := newtop, trajectory := newtraj, selections := [], resnums := none })]
  | some h => updFirst univ
      { h with topology := newtop, trajectory := newtraj } univs

/-- `SimFileHDF5.rename_universe` (legacy backend): `rename_node`
first fetches the node (`NoSuchNodeError` -> `KeyError` when the
universe is absent), then refuses when the new name is occupied
(`NodeError` -> `ValueError`), leaving the tree untouched; otherwise
the node keeps its contents under the new name. -/
def SimFileHDF5.rename_universe (univs : List (String × HUniv)) (univ newname : String) :
    Except PyErr (List (String × HUniv)) :=
  match lookupKey univ univs with
  | none => Except.error PyErr.keyError
  | some h =>
    if newname ∈ keysOf univs then Except.error PyErr.valueError
    else Except.ok (eraseKey univ univs ++ [(newname, h)])

/-- Contents of the serialized record file as the codec sees them:
missing (opening raises `IOError`), present but unparseable (the
deserializer raises a parse error), or a parsed record.  Modelled from
the spec: the deserializer itself (the `MixinJSON` serialization mixin)
is not part of the given source; per spec section 4.3 the current codec
parses the whole document, and a parse failure is a distinct error from
the missing-file `IOError` that `_pull_push` catches. -/
inductive FileContent (α : Type) where
  | absent
  | garbage
  | record (r : α)
deriving DecidableEq, Repr

/-- `FileSerial._pull_record`: open and deserialize the record file. -/
def pullRecordE {α : Type} : FileContent α → Except PyErr α
  | .absent => Except.error PyErr.ioError
  | .garbage => Except.error PyErr.valueError
  | .record r => Except.ok r

/-- `FileSerial._pull`, the decorator wrapped around every read
operation: pull the record and run the operation on it; no exception
from the pull is caught. -/
def pullRun {α β : Type} (body : α → β) (file : FileContent α) : Except PyErr β :=
  match pullRecordE file with
  | Except.ok r => Except.ok (body r)
  | Except.error e => Except.error e

/-- `FileSerial._pull_push`, the decorator wrapped around every write
operation: pull the record, falling back to `_init_record` only on
`IOError`; run the operation; push the resulting record back to the
file.  Returns the final in-memory record and file contents. -/
def pullPushRunE {α : Type} (initRec : α) (body : α → α) (file : FileContent α) :
    Except PyErr (α × FileContent α) :=
  match pullRecordE file with
  | Except.ok r =>
    let r2 := body r
    Except.ok (r2, FileContent.record r2)
  | Except.error PyErr.ioError =>
    let r2 := body initRec
    Except.ok (r2, FileContent.record r2)
  | Except.error e => Except.error e

/-- `TreantFile.get_tags`, a representative read operation of the
serialized backend (`@FileSerial._read @FileSerial._pull`): return the
pulled record's tag list. -/
def TreantFile.get_tags (file : FileContent TreantRec) : Except PyErr (List PyVal) :=
  pullRun (fun r => r.tags) file

/-- Lock mode recorded in `self.fdlock`. -/
inductive LockMode where
  | shared
  | exclusive
deriving DecidableEq, Repr

/-- The process-local state relevant to the `FileSerial._write`
re-entrancy protocol: the currently held lock mode, the record file's
contents, the in-memory record, and event counters for persists
(`_push_record` calls) and exclusive-lock acquisitions.  Error paths
are covered by the `Except`-valued model above; this model follows the
success path to count events. -/
structure TxState where
  fdlock : Option LockMode := none
  fileRec : Option TreantRec := none
  mem : TreantRec := {}
  pushes : Nat := 0
  exAcquires : Nat := 0

/-- `FileSerial._push_record`: serialize the in-memory record to the
file (one persist event). -/
def pushRecord (s : TxState) : TxState :=
  { s with fileRec := some s.mem, pushes := s.pushes + 1 }

/-- `FileSerial._pull_push` in the state-counting model: pull (falling
back to `_init_record` when the file is missing), run the body, push. -/
def pullPushRunT (body : TxState → TxState) (s : TxState) : TxState :=
  let s1 := match s.fileRec with
    | some r => { s with mem := r }
    | none => { s with mem := treantInit }
  pushRecord (body s1)

/-- The `FileSerial._write` decorator: when an exclusive lock is
already held, run the wrapped `_pull_push` body directly; otherwise
acquire the exclusive lock, run it, and release the lock. -/
def writeCall (body : TxState → TxState) (s : TxState) : TxState :=
  if s.fdlock = some LockMode.exclusive then
    pullPushRunT body s
  else
    let s1 := { s with fdlock := some LockMode.exclusive, exAcquires := s.exAcquires + 1 }
    let s2 := pullPushRunT body s1
    { s2 with fdlock := none }

/-- A write-category method with a no-op body (e.g. `update_version`
with the current version): used to count the persists contributed by
nested decorated calls. -/
def noopWrite : TxState → TxState :=
  writeCall (fun s => s)

/-- `n` sequential nested write-category calls. -/
def nestedWrites : Nat → TxState → TxState
  | 0, s => s
  | n + 1, s => nestedWrites n (noopWrite s)

/-- Fresh process state: no lock held, record file absent, no events. -/
def txInit : TxState := {}

/-- Concrete member rows used to evaluate theorems on explicit
inputs. -/
def memX : Member :=
  { uuid := "X", treanttype := "Treant", abs := "/abs/a1", rel := "rel:a1:/loc" }

/-- A group record already holding the member `memX`. -/
def grecX : GroupRec := { members := [memX] }

/-- Six member rows with uuids `u0` .. `u5`. -/
def mem6 (i : Nat) : Member :=
  { uuid := "u" ++ toString i, treanttype := "Treant",
    abs := "/abs/u" ++ toString i, rel := "rel" ++ toString i }

/-- A group record holding the six members `u0` .. `u5` in order. -/
def grec6 : GroupRec :=
  { members := [mem6 0, mem6 1, mem6 2, mem6 3, mem6 4, mem6 5] }

/-- A universe dict with stored selections and resnums, for evaluating
theorems on explicit inputs. -/
def udefW : UDef :=
  { top := some ("/abs/top0", "rel:top0")
    traj := some [("/abs/t0", "rel:t0")]
    sels := some [("ca", [SelItem.strSel "name CA"])]
    resnums := some (some [1, 2, 3]) }

/-- A simulation record holding the universe `prod` (with selections
and resnums) and `scratch`, defaulting to `prod`. -/
def simW : SimRec :=
  { universes := [("prod", udefW), ("scratch", {})]
    default := some "prod" }

/-- A legacy-backend universe with stored selections and resnums. -/
def hunivW : HUniv :=
  { topology := ("/abs/top0", "rel:top0")
    trajectory := [("/abs/t0", "rel:t0")]
    selections := [("ca", [SelItem.strSel "name CA"])]
    resnums := some [1, 2, 3] }

/-- A legacy-backend universes listing holding `prod` and `scratch`. -/
def hunivsW : List (String × HUniv) :=
  [("prod", hunivW), ("scratch", { topology := ("/abs/t", "rel:t"), trajectory := [],
                                   selections := [], resnums := none })]

/-- A record already tagged `a`, for evaluating the re-add case. -/
def trecTagA : TreantRec := { tags := [PyVal.pyStr "a"] }

/-- The data-model invariant of claim C5, as a decidable check: if the
`default` field of a simulation record is set, it names a present key
of the `universes` mapping. -/
def simInvariantB (r : SimRec) : Bool :=
  match r.default with
  | none => true
  | some d => decide (d ∈ keysOf r.universes)

theorem keysOf_nil {α : Type} : keysOf ([] : List (String × α)) = [] := rfl

theorem keysOf_cons {α : Type} (kv : String × α) (l : List (String × α)) :
    keysOf (kv :: l) = kv.1 :: keysOf l := rfl

theorem keysOf_append {α : Type} (l l' : List (String × α)) :
    keysOf (l ++ l') = keysOf l ++ keysOf l' := by
  simp [keysOf]

theorem keysOf_updFirst {α : Type} (k : String) (v : α) (l : List (String × α)) :
    keysOf (updFirst k v l) = keysOf l := by
  induction l with
  | nil => rfl
  | cons kv rest ih =>
    by_cases h : kv.1 = k
    · simp [updFirst, h, keysOf]
    · simp [updFirst, h, keysOf_cons, ih]

theorem lookupKey_updFirst_self {α : Type} (k : String) (v : α) (l : List (String × α))
    (h : k ∈ keysOf l) : lookupKey k (updFirst k v l) = some v := by
  induction l with
  | nil => simp [keysOf] at h
  | cons kv rest ih =>
    by_cases hk : kv.1 = k
    · simp [updFirst, hk, lookupKey]
    · have hm : k ∈ keysOf rest := by
        rcases (by simpa [keysOf_cons] using h) with h1 | h2
        · exact absurd h1.symm hk
        · exact h2
      simp [updFirst, hk, lookupKey, ih hm]

theorem lookupKey_eq_none {α : Type} (k : String) (l : List (String × α))
    (h : k ∉ keysOf l) : lookupKey k l = none := by
  induction l with
  | nil => rfl
  | cons kv rest ih =>
    have h1 : ¬ kv.1 = k := by
      intro he
      exact h (by simp [keysOf_cons, he])
    have h2 : k ∉ keysOf rest := fun hm => h (by simp [keysOf_cons, hm])
    simp [lookupKey, h1, ih h2]

theorem lookupKey_append_self {α : Type} (k : String) (v : α) (l : List (String × α))
    (h : k ∉ keysOf l) : lookupKey k (l ++ [(k, v)]) = some v := by
  induction l with
  | nil => simp [lookupKey]
  | cons kv rest ih =>
    have h1 : ¬ kv.1 = k := by
      intro he
      exact h (by simp [keysOf_cons, he])
    have h2 : k ∉ keysOf rest := fun hm => h (by simp [keysOf_cons, hm])
    simp [lookupKey, h1, ih h2]

theorem lookupKey_dictInsert_self {α : Type} (k : String) (v : α) (l : List (String × α)) :
    lookupKey k (dictInsert l k v) = some v := by
  by_cases h : k ∈ keysOf l
  · simp [dictInsert, h, lookupKey_updFirst_self k v l h]
  · simp [dictInsert, h, lookupKey_append_self k v l h]

theorem mem_keysOf_of_lookup_some {α : Type} (k : String) (x : α) (l : List (String × α))
    (h : lookupKey k l = some x) : k ∈ keysOf l := by
  induction l with
  | nil => simp [lookupKey] at h
  | cons kv rest ih =>
    by_cases hk : kv.1 = k
    · simp [keysOf_cons, hk]
    · simp [lookupKey, hk] at h
      exact (by simp [keysOf_cons, ih h] : k ∈ keysOf (kv :: rest))

theorem mem_keysOf_dictInsert_self {α : Type} (k : String) (v : α) (l : List (String × α)) :
    k ∈ keysOf (dictInsert l k v) := by
  by_cases h : k ∈ keysOf l
  · rw [dictInsert, if_pos h, keysOf_updFirst]
    exact h
  · simp [dictInsert, h, keysOf_append, keysOf_cons]

theorem mem_keysOf_dictInsert_of_mem {α : Type} (a k : String) (v : α)
    (l : List (String × α)) (h : a ∈ keysOf l) : a ∈ keysOf (dictInsert l k v) := by
  by_cases hk : k ∈ keysOf l
  · simpa [dictInsert, hk, keysOf_updFirst] using h
  · simp [dictInsert, hk, keysOf_append, keysOf_cons]
    exact Or.inl h

theorem countKey_updFirst {α : Type} (a k : String) (v : α) (l : List (String × α)) :
    countKey (updFirst k v l) a = countKey l a := by
  simp [countKey, keysOf_updFirst]

theorem countKey_dictInsert_self {α : Type} (k : String) (v : α) (l : List (String × α))
    (hnd : (keysOf l).Nodup) : countKey (dictInsert l k v) k = 1 := by
  by_cases h : k ∈ keysOf l
  · rw [dictInsert, if_pos h, countKey_updFirst]
    exact List.count_eq_one_of_mem hnd h
  · rw [dictInsert, if_neg h]
    simp [countKey, keysOf_append, keysOf_cons, keysOf_nil, List.count_append,
      List.count_eq_zero_of_not_mem h]

theorem nodup_keysOf_dictInsert {α : Type} (k : String) (v : α) (l : List (String × α))
    (hnd : (keysOf l).Nodup) : (keysOf (dictInsert l k v)).Nodup := by
  by_cases h : k ∈ keysOf l
  · simpa [dictInsert, h, keysOf_updFirst] using hnd
  · rw [dictInsert, if_neg h, keysOf_append]
    simpa [keysOf, ← List.concat_eq_append] using hnd.concat h

theorem mem_strSet (a : String) (l : List String) : a ∈ strSet l ↔ a ∈ l := by
  induction l generalizing a with
  | nil => simp [strSet]
  | cons b rest ih =>
    have hdef : strSet (b :: rest)
        = if b ∈ strSet rest then strSet rest else b :: strSet rest := rfl
    by_cases h : b ∈ strSet rest
    · rw [hdef, if_pos h, ih, List.mem_cons]
      constructor
      · exact fun hm => Or.inr hm
      · rintro (he | hm)
        · exact he ▸ (ih b).mp h
        · exact hm
    · rw [hdef, if_neg h, List.mem_cons, List.mem_cons, ih]

theorem mem_pySet (a : PyVal) (l : List PyVal) : a ∈ pySet l ↔ a ∈ l := by
  induction l generalizing a with
  | nil => simp [pySet]
  | cons b rest ih =>
    have hdef : pySet (b :: rest)
        = if b ∈ pySet rest then pySet rest else b :: pySet rest := rfl
    by_cases h : b ∈ pySet rest
    · rw [hdef, if_pos h, ih, List.mem_cons]
      constructor
      · exact fun hm => Or.inr hm
      · rintro (he | hm)
        · exact he ▸ (ih b).mp h
        · exact hm
    · rw [hdef, if_neg h, List.mem_cons, List.mem_cons, ih]

/-- Strictly increasing list of naturals bounded below by `n`: the
shape of the index lists produced by the enumeration loop. -/
def incFrom : Nat → List Nat → Prop
  | _, [] => True
  | n, i :: rest => n ≤ i ∧ incFrom (i + 1) rest

theorem incFrom_mono (l : List Nat) : ∀ m n : Nat, m ≤ n → incFrom n l → incFrom m l := by
  induction l with
  | nil => intro m n _ _; trivial
  | cons i rest _ =>
    intro m n hmn h
    exact ⟨le_trans hmn h.1, h.2⟩

theorem incFrom_matchIdx {α : Type} (P : α → Bool) (l : List α) :
    ∀ i : Nat, incFrom i (matchIdx P l i) := by
  induction l with
  | nil => intro i; trivial
  | cons a rest ih =>
    intro i
    by_cases h : P a
    · simpa [matchIdx, h] using ⟨le_refl i, ih (i + 1)⟩
    · simp only [matchIdx, h, if_false]
      exact incFrom_mono _ i (i + 1) (Nat.le_succ i) (ih (i + 1))

theorem popAt_cons_zero {α : Type} (a : α) (t : List α) : popAt (a :: t) 0 = t := by
  simp [popAt]

theorem popAt_cons_succ {α : Type} (a : α) (t : List α) (k : Nat) :
    popAt (a :: t) (k + 1) = a :: popAt t k := by
  simp [popAt, List.take_succ_cons, List.drop_succ_cons]

theorem insertSorted_ge (a : Nat) (l : List Nat) (h : incFrom (a + 1) l) :
    insertSorted a l = a :: l := by
  cases l with
  | nil => rfl
  | cons b rest =>
    have hab : a ≤ b := le_trans (Nat.le_succ a) h.1
    simp [insertSorted, hab]

theorem isort_of_incFrom (l : List Nat) : ∀ n : Nat, incFrom n l → isort l = l := by
  induction l with
  | nil => intro n _; rfl
  | cons a rest ih =>
    intro n h
    rw [isort, ih (a + 1) h.2, insertSorted_ge a rest h.2]

theorem removeShifted_cons {α : Type} (a : α) :
    ∀ (idxs : List Nat) (j : Nat) (t : List α), incFrom (j + 1) idxs →
      removeShifted (a :: t) idxs j = a :: removeShifted t idxs (j + 1) := by
  intro idxs
  induction idxs with
  | nil => intro j t _; rfl
  | cons i rest ih =>
    intro j t h
    obtain ⟨h1, h2⟩ := h
    have hi : i - j = (i - (j + 1)) + 1 := by omega
    rw [removeShifted, hi, popAt_cons_succ]
    rw [ih (j + 1) (popAt t (i - (j + 1)))
      (incFrom_mono rest (j + 2) (i + 1) (by omega) h2)]
    rfl

theorem removeShifted_matchIdx {α : Type} (P : α → Bool) (l : List α) :
    ∀ j : Nat, removeShifted l (matchIdx P l j) j = l.filter (fun a => !(P a)) := by
  induction l with
  | nil => intro j; rfl
  | cons a t ih =>
    intro j
    by_cases h : P a
    · rw [show matchIdx P (a :: t) j = j :: matchIdx P t (j + 1) by simp [matchIdx, h]]
      rw [removeShifted, Nat.sub_self, popAt_cons_zero, ih (j + 1)]
      simp [h]
    · rw [show matchIdx P (a :: t) j = matchIdx P t (j + 1) by simp [matchIdx, h]]
      rw [removeShifted_cons a (matchIdx P t (j + 1)) j t (incFrom_matchIdx P t (j + 1))]
      rw [ih (j + 1)]
      simp [h]

theorem matchIdx_length {α : Type} (P : α → Bool) (l : List α) :
    ∀ i : Nat, (matchIdx P l i).length = (l.filter P).length := by
  induction l with
  | nil => intro i; rfl
  | cons a t ih =>
    intro i
    by_cases h : P a
    · simp [matchIdx, h, ih (i + 1)]
    · simp [matchIdx, h, ih (i + 1)]

theorem filter_not_of_filter_length {α : Type} (P : α → Bool) (l : List α)
    (h : (l.filter P).length = l.length) : l.filter (fun a => !(P a)) = [] := by
  induction l with
  | nil => rfl
  | cons a t ih =>
    by_cases hP : P a
    · have ht : (t.filter P).length = t.length := by
        simpa [List.filter_cons, hP] using h
      simp [List.filter_cons, hP, ih ht]
    · exfalso
      have hle : (t.filter P).length ≤ t.length := t.length_filter_le P
      have h2 : (List.filter P (a :: t)).length = (t.filter P).length := by
        simp [List.filter_cons, hP]
      have h3 : (List.filter P (a :: t)).length = t.length + 1 := by
        simpa using h
      omega

theorem hdf5CatPass_nil_cats (rows : List (String × String)) :
    hdf5CatPass rows [] = (rows, []) := by
  induction rows with
  | nil => rfl
  | cons kv rest ih => simp [hdf5CatPass, lookupKey, ih]

theorem hdf5CatPass_singleton_not_mem (rows : List (String × String)) (k : String)
    (v : PyVal) (h : k ∉ keysOf rows) : hdf5CatPass rows [(k, v)] = (rows, [(k, v)]) := by
  induction rows with
  | nil => rfl
  | cons kv rest ih =>
    obtain ⟨k1, v1⟩ := kv
    have h1 : ¬ k1 = k := by
      intro he
      exact h (by simp [keysOf_cons, he])
    have h2 : k ∉ keysOf rest := fun hm => h (by simp [keysOf_cons, hm])
    have h3 : ¬ k = k1 := fun he => h1 he.symm
    have hlk : lookupKey k1 [(k, v)] = none := by
      simp [lookupKey, h3]
    simp [hdf5CatPass, hlk, ih h2]

theorem hdf5CatPass_singleton_mem (rows : List (String × String)) (k : String)
    (v : PyVal) (h : k ∈ keysOf rows) :
    hdf5CatPass rows [(k, v)] = (updFirst k (pyStrOf v) rows, []) := by
  induction rows with
  | nil => simp [keysOf] at h
  | cons kv rest ih =>
    obtain ⟨k1, v1⟩ := kv
    by_cases hk : k1 = k
    · subst hk
      have hlk : lookupKey k1 [(k1, v)] = some v := by
        simp [lookupKey]
      have her : eraseKey k1 [(k1, v)] = [] := by
        simp [eraseKey]
      simp [hdf5CatPass, hlk, her, hdf5CatPass_nil_cats, updFirst]
    · have hm : k ∈ keysOf rest := by
        rcases (by simpa [keysOf_cons] using h) with h1 | h2
        · exact absurd h1.symm hk
        · exact h2
      have h3 : ¬ k = k1 := fun he => hk he.symm
      have hlk : lookupKey k1 [(k, v)] = none := by
        simp [lookupKey, h3]
      simp [hdf5CatPass, hlk, ih hm, updFirst, hk]

theorem hdf5_add_categories_singleton (rows : List (String × String)) (k : String)
    (v : PyVal) : TreantFileHDF5.add_categories rows [(k, v)] = dictInsert rows k (pyStrOf v) := by
  by_cases h : k ∈ keysOf rows
  · simp [TreantFileHDF5.add_categories, hdf5CatPass_singleton_mem rows k v h,
      dictInsert, h]
  · simp [TreantFileHDF5.add_categories, hdf5CatPass_singleton_not_mem rows k v h,
      dictInsert, h]

theorem serial_add_categories_singleton (r : TreantRec) (k : String) (v : PyVal)
    (hv : isTagType v = true) :
    TreantFile.add_categories r [(k, v)] = { r with categories := dictInsert r.categories k v } := by
  simp [TreantFile.add_categories, hv]

theorem nestedWrites_exclusive (n : Nat) :
    ∀ s : TxState, s.fdlock = some LockMode.exclusive →
      (nestedWrites n s).pushes = s.pushes + n
      ∧ (nestedWrites n s).exAcquires = s.exAcquires
      ∧ (nestedWrites n s).fdlock = some LockMode.exclusive := by
  induction n with
  | zero => intro s h; exact ⟨rfl, rfl, h⟩
  | succ m ih =>
    intro s h
    have hstep : noopWrite s
        = pushRecord (match s.fileRec with
            | some r => { s with mem := r }
            | none => { s with mem := treantInit }) := by
      simp [noopWrite, writeCall, h, pullPushRunT]
    have h1 : (noopWrite s).pushes = s.pushes + 1 := by
      rw [hstep]
      cases hf : s.fileRec <;> simp [pushRecord]
    have h2 : (noopWrite s).exAcquires = s.exAcquires := by
      rw [hstep]
      cases hf : s.fileRec <;> simp [pushRecord]
    have h3 : (noopWrite s).fdlock = some LockMode.exclusive := by
      rw [hstep]
      cases hf : s.fileRec <;> simp [pushRecord, h]
    obtain ⟨p1, p2, p3⟩ := ih (noopWrite s) h3
    refine ⟨?_, ?_, ?_⟩
    · rw [show nestedWrites (m + 1) s = nestedWrites m (noopWrite s) from rfl, p1, h1]
      omega
    · rw [show nestedWrites (m + 1) s = nestedWrites m (noopWrite s) from rfl, p2, h2]
    · rw [show nestedWrites (m + 1) s = nestedWrites m (noopWrite s) from rfl]
      exact p3

/-- Claim C1, evaluated at the failing input.  On a record that already
holds member uuid `X` with stored paths derived from basedir `a1`,
re-adding `X` with basedir `b2`: the current serialized backend
(`GroupFile.add_member`) leaves the record completely unchanged — the
stored `abspath` stays `/abs/a1` instead of being updated to the
absolute form of `b2` — while the legacy backend
(`GroupFileHDF5.add_member`) does update the row's paths in place, as
the claim (and the method's own docstring) states. -/
theorem add_member_upsert_divergence :
    GroupFile.add_member osW "/loc" grecX "X" "Treant" "b2" = grecX
    ∧ GroupFileHDF5.add_member osW "/loc" [memX] "X" "Treant" "b2"
        = [{ uuid := "X", treanttype := "Treant", abs := "/abs/b2", rel := "rel:b2:/loc" }]
    ∧ ("/abs/b2" : String) ≠ "/abs/a1" := by
  refine ⟨by decide, by decide, by decide⟩

/-- Claim C2: the "no default" sentinel round-trips to the abstract
absent value in both backends.  For the serialized backend,
`update_default(None)` stores the absent value and `get_default`
returns it unchanged.  For the legacy backend, `update_default(None)`
ends with the cell holding the literal string `"None"`, and
`get_default` translates a stored `"None"` back to the absent value;
moreover `get_default` can never return the literal string `"None"`. -/
theorem default_sentinel_roundtrip :
    (∀ r : SimRec, SimFile.get_default (SimFile.update_default r none) = none)
    ∧ (∀ t : Option String,
        SimFileHDF5.get_default (SimFileHDF5.update_default t none) = Except.ok none)
    ∧ SimFileHDF5.get_default (some "None") = Except.ok none
    ∧ (∀ t : Option String, SimFileHDF5.get_default t ≠ Except.ok (some "None")) := by
  refine ⟨fun r => rfl, fun t => rfl, rfl, ?_⟩
  intro t h
  cases t with
  | none => exact Except.noConfusion h
  | some cell =>
    by_cases hc : cell = "None"
    · rw [SimFileHDF5.get_default, if_pos hc] at h
      simp at h
    · rw [SimFileHDF5.get_default, if_neg hc] at h
      simp at h
      exact hc h

/-- Claim C3, amended: in the current serialized backend, only
write-category operations (wrapped with `_pull_push`) fall back to the
default empty record — and only when the pull raises `IOError` (missing
file); an unparseable file propagates its parse error even for writes,
and read-category operations (wrapped with `_pull`) propagate every
pull failure instead of initializing. -/
theorem lazy_init_write_only :
    (∀ body : TreantRec → TreantRec,
        pullPushRunE treantInit body FileContent.absent
          = Except.ok (body treantInit, FileContent.record (body treantInit)))
    ∧ (∀ body : GroupRec → GroupRec,
        pullPushRunE groupInit body FileContent.absent
          = Except.ok (body groupInit, FileContent.record (body groupInit)))
    ∧ (∀ body : SimRec → SimRec,
        pullPushRunE simInit body FileContent.absent
          = Except.ok (body simInit, FileContent.record (body simInit)))
    ∧ (∀ body : TreantRec → TreantRec,
        pullPushRunE treantInit body FileContent.garbage = Except.error PyErr.valueError)
    ∧ (∀ body : TreantRec → List PyVal,
        pullRun body FileContent.absent = Except.error PyErr.ioError) :=
  ⟨fun _ => rfl, fun _ => rfl, fun _ => rfl, fun _ => rfl, fun _ => rfl⟩

/-- Claim C3, counterexample: `get_tags`, a read operation of the
current backend, performed when the record file does not exist, fails
with `IOError` instead of initializing the record to the default empty
record and returning its (empty) tag list. -/
theorem read_absent_fails :
    TreantFile.get_tags FileContent.absent = Except.error PyErr.ioError
    ∧ TreantFile.get_tags FileContent.absent
        ≠ (Except.ok [] : Except PyErr (List PyVal)) :=
  ⟨rfl, fun h => Except.noConfusion h⟩

/-- Claim C4, amended: a top-level Write on the current backend
acquires the exclusive lock exactly once — the `n` nested
write-category calls run under the already-held lock without
re-acquiring — and the lock is released at the end; but each nested
`_pull_push`-wrapped step performs its own persist, so the top-level
call produces `n + 1` persists to disk (the outermost call performing
the final one), not exactly one. -/
theorem toplevel_write_lock_once (n : Nat) (s : TxState) (h : s.fdlock = none) :
    (writeCall (nestedWrites n) s).exAcquires = s.exAcquires + 1
    ∧ (writeCall (nestedWrites n) s).pushes = s.pushes + (n + 1)
    ∧ (writeCall (nestedWrites n) s).fdlock = none := by
  have hne : ¬ s.fdlock = some LockMode.exclusive := by
    rw [h]
    simp
  cases hf : s.fileRec with
  | none =>
    have hred : writeCall (nestedWrites n) s
        = { pushRecord (nestedWrites n
              { s with fdlock := some LockMode.exclusive,
                       exAcquires := s.exAcquires + 1, mem := treantInit })
            with fdlock := none } := by
      simp [writeCall, hne, pullPushRunT, hf]
    obtain ⟨p1, p2, p3⟩ := nestedWrites_exclusive n
      { s with fdlock := some LockMode.exclusive,
               exAcquires := s.exAcquires + 1, mem := treantInit } rfl
    refine ⟨?_, ?_, ?_⟩
    · rw [hred]
      simp [pushRecord, p2]
    · rw [hred]
      simp [pushRecord, p1]
      omega
    · rw [hred]
  | some r =>
    have hred : writeCall (nestedWrites n) s
        = { pushRecord (nestedWrites n
              { s with fdlock := some LockMode.exclusive,
                       exAcquires := s.exAcquires + 1, mem := r })
            with fdlock := none } := by
      simp [writeCall, hne, pullPushRunT, hf]
    obtain ⟨p1, p2, p3⟩ := nestedWrites_exclusive n
      { s with fdlock := some LockMode.exclusive,
               exAcquires := s.exAcquires + 1, mem := r } rfl
    refine ⟨?_, ?_, ?_⟩
    · rw [hred]
      simp [pushRecord, p2]
    · rw [hred]
      simp [pushRecord, p1]
      omega
    · rw [hred]

/-- Witness for the amended C4 theorem at a concrete input: from a
fresh process state, a top-level Write wrapping two nested write calls
acquires the exclusive lock once, persists three times, and releases
the lock. -/
theorem toplevel_write_lock_once_witness :
    txInit.fdlock = none
    ∧ ((writeCall (nestedWrites 2) txInit).exAcquires = txInit.exAcquires + 1
      ∧ (writeCall (nestedWrites 2) txInit).pushes = txInit.pushes + (2 + 1)
      ∧ (writeCall (nestedWrites 2) txInit).fdlock = none) :=
  ⟨rfl, toplevel_write_lock_once 2 txInit rfl⟩

/-- Claim C4, counterexample: a top-level Write containing one nested
write-category call, run from a fresh process state, performs two
persists to disk, not exactly one — the nested `_pull_push`-wrapped
step pushes the record even though it runs under the already-held
exclusive lock. -/
theorem nested_write_two_pushes :
    (writeCall (fun s => writeCall (fun s2 => s2) s) txInit).pushes = 2
    ∧ (2 : Nat) ≠ 1 :=
  ⟨rfl, by decide⟩

/-- Claim C5, amended: of the listed operations of the serialized
simulation backend, `add_universe` preserves the invariant that a set
`default` always names a present universe (its auto-default is the
universe just inserted, which is a present key afterwards, and an
already-set non-empty default keeps naming a key that insertion
preserves); `update_default`, `del_universe` and `rename_universe` do
not consult the `universes` mapping's keys against the `default` field
and can leave a set default naming an absent universe. -/
theorem add_universe_preserves_default_invariant (os : OsPath) (loc : String)
    (r : SimRec) (univ topology : String) (trajectory : List String)
    (h : simInvariantB r = true) :
    simInvariantB (SimFile.add_universe os loc r univ topology trajectory) = true := by
  obtain ⟨d1, hu⟩ : ∃ d1 : UDef,
      (SimFile.add_universe os loc r univ topology trajectory).universes
        = dictInsert r.universes univ d1 := ⟨_, rfl⟩
  have hdft : (SimFile.add_universe os loc r univ topology trajectory).default
      = if isFalsy r.default then some univ else r.default := rfl
  unfold simInvariantB
  by_cases hfalsy : isFalsy r.default = true
  · rw [if_pos hfalsy] at hdft
    rw [hdft, hu]
    simp [mem_keysOf_dictInsert_self]
  · rw [if_neg hfalsy] at hdft
    cases hd : r.default with
    | none =>
      rw [hdft, hd]
    | some d =>
      have hmem : d ∈ keysOf r.universes := by
        unfold simInvariantB at h
        rw [hd] at h
        simpa using h
      rw [hdft, hd, hu]
      simp [mem_keysOf_dictInsert_of_mem d univ d1 r.universes hmem]

/-- Witness for the amended C5 theorem at a concrete input: re-adding
`prod` to a record satisfying the invariant keeps the invariant. -/
theorem add_universe_preserves_default_invariant_witness :
    simInvariantB simW = true
    ∧ simInvariantB (SimFile.add_universe osW "/loc" simW "prod" "top.pdb" ["run1.xtc"])
        = true :=
  ⟨by decide, add_universe_preserves_default_invariant osW "/loc" simW "prod" "top.pdb"
      ["run1.xtc"] (by decide)⟩

/-- Claim C5, counterexample: `update_default` does not check that the
named universe exists — on the freshly initialized record (empty
`universes` mapping, invariant holding) it sets `default` to `"u"`,
after which the invariant is violated. -/
theorem update_default_breaks_invariant :
    simInvariantB simInit = true
    ∧ simInvariantB (SimFile.update_default simInit (some "u")) = false := by
  refine ⟨by decide, by decide⟩

/-- Claim C6, amended: inserting an existing category key overwrites
its value in place (last-write-wins) in both backends — after adding
`k = v1` and then `k = v2` exactly one entry for `k` remains — but the
stored value differs by backend: the legacy backend coerces the value
with `str()` (storing the string representation of `v2`), while the
current serialized backend stores the admissible value itself,
uncoerced. -/
theorem category_overwrite_last_write_wins :
    (∀ (r : TreantRec) (k : String) (v1 v2 : PyVal),
        (keysOf r.categories).Nodup → isTagType v1 = true → isTagType v2 = true →
        countKey (TreantFile.add_categories (TreantFile.add_categories r [(k, v1)])
            [(k, v2)]).categories k = 1
        ∧ lookupKey k (TreantFile.add_categories (TreantFile.add_categories r [(k, v1)])
            [(k, v2)]).categories = some v2)
    ∧ (∀ (rows : List (String × String)) (k : String) (v1 v2 : PyVal),
        (keysOf rows).Nodup →
        countKey (TreantFileHDF5.add_categories (TreantFileHDF5.add_categories rows
            [(k, v1)]) [(k, v2)]) k = 1
        ∧ lookupKey k (TreantFileHDF5.add_categories (TreantFileHDF5.add_categories rows
            [(k, v1)]) [(k, v2)]) = some (pyStrOf v2)) := by
  constructor
  · intro r k v1 v2 hnd hv1 hv2
    rw [serial_add_categories_singleton r k v1 hv1,
      serial_add_categories_singleton _ k v2 hv2]
    constructor
    · exact countKey_dictInsert_self k v2 (dictInsert r.categories k v1)
        (nodup_keysOf_dictInsert k v1 r.categories hnd)
    · exact lookupKey_dictInsert_self k v2 (dictInsert r.categories k v1)
  · intro rows k v1 v2 hnd
    rw [hdf5_add_categories_singleton rows k v1,
      hdf5_add_categories_singleton _ k v2]
    constructor
    · exact countKey_dictInsert_self k (pyStrOf v2) (dictInsert rows k (pyStrOf v1))
        (nodup_keysOf_dictInsert k (pyStrOf v1) rows hnd)
    · exact lookupKey_dictInsert_self k (pyStrOf v2) (dictInsert rows k (pyStrOf v1))

/-- Witness for the amended C6 theorem at a concrete input: adding
`a = 1` then `a = 2` to the empty record of each backend leaves one
entry for `a`, valued `2` (the integer) in the current backend and
`"2"` (the string) in the legacy backend. -/
theorem category_overwrite_last_write_wins_witness :
    (countKey (TreantFile.add_categories (TreantFile.add_categories treantInit
        [("a", PyVal.pyInt 1)]) [("a", PyVal.pyInt 2)]).categories "a" = 1
      ∧ lookupKey "a" (TreantFile.add_categories (TreantFile.add_categories treantInit
        [("a", PyVal.pyInt 1)]) [("a", PyVal.pyInt 2)]).categories = some (PyVal.pyInt 2))
    ∧ (countKey (TreantFileHDF5.add_categories (TreantFileHDF5.add_categories []
        [("a", PyVal.pyInt 1)]) [("a", PyVal.pyInt 2)]) "a" = 1
      ∧ lookupKey "a" (TreantFileHDF5.add_categories (TreantFileHDF5.add_categories []
        [("a", PyVal.pyInt 1)]) [("a", PyVal.pyInt 2)])
          = some (pyStrOf (PyVal.pyInt 2))) :=
  ⟨category_overwrite_last_write_wins.1 treantInit "a" (PyVal.pyInt 1) (PyVal.pyInt 2)
      (by decide) (by decide) (by decide),
   category_overwrite_last_write_wins.2 [] "a" (PyVal.pyInt 1) (PyVal.pyInt 2) (by decide)⟩

/-- Claim C6, counterexample: in the current serialized backend, adding
`a = 1` then `a = 2` leaves the single entry `("a", 2)` holding the
integer `2` itself, not the string representation `"2"` that the claim
asserts for both backends. -/
theorem serial_category_value_not_string :
    (TreantFile.add_categories (TreantFile.add_categories treantInit
        [("a", PyVal.pyInt 1)]) [("a", PyVal.pyInt 2)]).categories
      = [("a", PyVal.pyInt 2)]
    ∧ ([("a", PyVal.pyInt 2)] : List (String × PyVal)) ≠ [("a", PyVal.pyStr "2")] :=
  ⟨by decide, by decide⟩

theorem filterExt {α : Type} (p q : α → Bool) :
    ∀ l : List α, (∀ x, x ∈ l → p x = q x) → l.filter p = l.filter q := by
  intro l
  induction l with
  | nil => intro _; rfl
  | cons a t ih =>
    intro h
    have ha : p a = q a := h a (List.mem_cons_self a t)
    have ht := ih (fun x hx => h x (List.mem_cons_of_mem a hx))
    simp [List.filter_cons, ha, ht]

/-- Claim C7: in both backends, `del_member` with a set of target uuids
removes exactly the members whose uuid is in the set and keeps the
rest in their original relative order — the collect-sort-pop-with-shift
algorithm computes exactly the filter on uuids — and in particular
deleting the uuids sitting at positions 1, 3, 5 of a six-member list
leaves exactly the members originally at positions 0, 2, 4, in order. -/
theorem del_member_filters_members :
    (∀ (r : GroupRec) (uuid : List String),
        GroupFile.del_member r uuid false
          = { r with members := r.members.filter (fun m => !(decide (m.uuid ∈ uuid))) })
    ∧ (∀ (rows : List Member) (uuid : List String),
        GroupFileHDF5.del_member rows uuid false
          = rows.filter (fun m => !(decide (m.uuid ∈ uuid))))
    ∧ (GroupFile.del_member grec6 ["u1", "u3", "u5"] false).members
        = [mem6 0, mem6 2, mem6 4]
    ∧ GroupFileHDF5.del_member grec6.members ["u1", "u3", "u5"] false
        = [mem6 0, mem6 2, mem6 4] := by
  have hpt : ∀ (uuid : List String) (m : Member),
      (!(decide (m.uuid ∈ strSet uuid))) = (!(decide (m.uuid ∈ uuid))) := by
    intro uuid m
    have := mem_strSet m.uuid uuid
    by_cases hm : m.uuid ∈ uuid
    · simp [hm, this.mpr hm]
    · have hn : m.uuid ∉ strSet uuid := fun hc => hm (this.mp hc)
      simp [hm, hn]
  refine ⟨?_, ?_, ?_, ?_⟩
  · intro r uuid
    simp only [GroupFile.del_member, Bool.false_eq_true, if_false]
    rw [isort_of_incFrom _ 0 (incFrom_matchIdx _ r.members 0),
      removeShifted_matchIdx]
    rw [filterExt _ _ r.members (fun m _ => hpt uuid m)]
  · intro rows uuid
    by_cases hlen :
        (matchIdx (fun m => decide (m.uuid ∈ strSet uuid)) rows 0).length = rows.length
    · simp only [GroupFileHDF5.del_member, Bool.false_eq_true, if_false, hlen, if_true]
      have hfl : (rows.filter (fun m => decide (m.uuid ∈ strSet uuid))).length
          = rows.length := by
        rw [← matchIdx_length _ rows 0]
        exact hlen
      rw [← filterExt _ _ rows (fun m _ => hpt uuid m)]
      exact (filter_not_of_filter_length _ rows hfl).symm
    · simp only [GroupFileHDF5.del_member, Bool.false_eq_true, if_false, hlen]
      rw [isort_of_incFrom _ 0 (incFrom_matchIdx _ rows 0), removeShifted_matchIdx]
      rw [filterExt _ _ rows (fun m _ => hpt uuid m)]
  · decide
  · decide

/-- Claim C8: renaming a universe to a name that already exists fails
with the typed conflict error (`ValueError`) in both backends, the
conflict check happening before any transformation of the universes
mapping, so the error result carries no mutated record. -/
theorem rename_universe_conflict_error :
    (∀ (r : SimRec) (univ newname : String) (dn : UDef),
        lookupKey newname r.universes = some dn →
        SimFile.rename_universe r univ newname = Except.error PyErr.valueError)
    ∧ (∀ (univs : List (String × HUniv)) (univ newname : String) (hu hn : HUniv),
        lookupKey univ univs = some hu → lookupKey newname univs = some hn →
        SimFileHDF5.rename_universe univs univ newname = Except.error PyErr.valueError) := by
  constructor
  · intro r univ newname dn h
    have hmem := mem_keysOf_of_lookup_some newname dn r.universes h
    simp [SimFile.rename_universe, hmem]
  · intro univs univ newname hu hn h1 h2
    have hmem := mem_keysOf_of_lookup_some newname hn univs h2
    simp [SimFileHDF5.rename_universe, h1, hmem]

/-- Witness for the C8 theorem at a concrete input: renaming `prod` to
the already-present `scratch` fails with the conflict error in both
backends. -/
theorem rename_universe_conflict_error_witness :
    SimFile.rename_universe simW "prod" "scratch" = Except.error PyErr.valueError
    ∧ SimFileHDF5.rename_universe hunivsW "prod" "scratch"
        = Except.error PyErr.valueError :=
  ⟨rename_universe_conflict_error.1 simW "prod" "scratch" {} (by decide),
   rename_universe_conflict_error.2 hunivsW "prod" "scratch" hunivW
     { topology := ("/abs/t", "rel:t"), trajectory := [], selections := [], resnums := none }
     (by decide) (by decide)⟩

/-- Claim C9: adding the same tag twice (starting from the empty
record) leaves a tag collection with exactly one occurrence of the
tag, in both backends; more generally, adding a tag that is already
present leaves the record unchanged in both backends (set semantics,
so the stored order never gains duplicates). -/
theorem add_tags_idempotent :
    (∀ t : String,
        (TreantFile.add_tags (TreantFile.add_tags treantInit [PyVal.pyStr t])
            [PyVal.pyStr t]).tags = [PyVal.pyStr t]
      ∧ TreantFileHDF5.add_tags (TreantFileHDF5.add_tags [] [PyVal.pyStr t])
            [PyVal.pyStr t] = [t])
    ∧ (∀ (r : TreantRec) (v : PyVal), v ∈ r.tags → TreantFile.add_tags r [v] = r)
    ∧ (∀ (rows : List String) (v : PyVal), pyStrOf v ∈ rows →
        TreantFileHDF5.add_tags rows [v] = rows) := by
  refine ⟨?_, ?_, ?_⟩
  · intro t
    constructor
    · simp [TreantFile.add_tags, treantInit, pySet, isTagType, pyStrOf]
    · simp [TreantFileHDF5.add_tags, strSet, pyStrOf]
  · intro r v hv
    cases hvt : isTagType v with
    | false =>
      simp [TreantFile.add_tags, hvt, pySet]
    | true =>
      simp [TreantFile.add_tags, hvt, pySet, hv]
  · intro rows v hv
    simp [TreantFileHDF5.add_tags, strSet, hv]

/-- Witness for the C9 theorem's re-add conjuncts at a concrete input:
adding the already-present tag `a` changes nothing in either backend. -/
theorem add_tags_idempotent_witness :
    TreantFile.add_tags trecTagA [PyVal.pyStr "a"] = trecTagA
    ∧ TreantFileHDF5.add_tags ["a"] [PyVal.pyStr "a"] = ["a"] :=
  ⟨add_tags_idempotent.2.1 trecTagA (PyVal.pyStr "a") (by decide),
   add_tags_idempotent.2.2 ["a"] (PyVal.pyStr "a") (by decide)⟩

/-- Claim C10: re-adding an existing universe replaces only its
topology and trajectory path entries and leaves its stored selections
and resnums unchanged, in both backends.  In the serialized backend
`add_universe` keeps the existing universe dict and overwrites only its
`top`/`traj` keys (creating `sels`/`resnums` only when absent); in the
legacy backend it removes and recreates only the `topology` and
`trajectory` tables, passing over the existing `selections` group and
never touching the `resnums` table. -/
theorem readd_universe_preserves_selections_resnums :
    (∀ (os : OsPath) (loc : String) (r : SimRec) (univ topology : String)
        (trajectory : List String) (d : UDef) (sl : List (String × List SelItem))
        (rn : Option (List Int)),
        lookupKey univ r.universes = some d → d.sels = some sl → d.resnums = some rn →
        lookupKey univ (SimFile.add_universe os loc r univ topology trajectory).universes
          = some { top := some (os.abspath topology, os.relpath topology loc)
                   traj := some (trajectory.map (fun s => (os.abspath s, os.relpath s loc)))
                   sels := some sl
                   resnums := some rn })
    ∧ (∀ (os : OsPath) (loc : String) (univs : List (String × HUniv))
        (univ topology : String) (trajectory : List String) (h : HUniv),
        lookupKey univ univs = some h →
        lookupKey univ (SimFileHDF5.add_universe os loc univs univ topology trajectory)
          = some { topology := (os.abspath topology, os.relpath topology loc)
                   trajectory := trajectory.map (fun s => (os.abspath s, os.relpath s loc))
                   selections := h.selections
                   resnums := h.resnums }) := by
  constructor
  · intro os loc r univ topology trajectory d sl rn hlk hs hr
    simp only [SimFile.add_universe, hlk, hs, hr]
    exact lookupKey_dictInsert_self univ _ r.universes
  · intro os loc univs univ topology trajectory h hlk
    have hmem := mem_keysOf_of_lookup_some univ h univs hlk
    simp only [SimFileHDF5.add_universe, hlk]
    exact lookupKey_updFirst_self univ _ univs hmem

/-- Witness for the C10 theorem at a concrete input: re-adding `prod`
(which holds selection `ca` and resnums `[1, 2, 3]`) with a new
topology and trajectory preserves its selections and resnums in both
backends. -/
theorem readd_universe_preserves_selections_resnums_witness :
    lookupKey "prod" (SimFile.add_universe osW "/loc" simW "prod" "top.pdb"
        ["run1.xtc"]).universes
      = some { top := some (osW.abspath "top.pdb", osW.relpath "top.pdb" "/loc")
               traj := some (["run1.xtc"].map (fun s => (osW.abspath s, osW.relpath s "/loc")))
               sels := some [("ca", [SelItem.strSel "name CA"])]
               resnums := some (some [1, 2, 3]) }
    ∧ lookupKey "prod" (SimFileHDF5.add_universe osW "/loc" hunivsW "prod" "top.pdb"
        ["run1.xtc"])
      = some { topology := (osW.abspath "top.pdb", osW.relpath "top.pdb" "/loc")
               trajectory := ["run1.xtc"].map (fun s => (osW.abspath s, osW.relpath s "/loc"))
               selections := hunivW.selections
               resnums := hunivW.resnums } :=
  ⟨readd_universe_preserves_selections_resnums.1 osW "/loc" simW "prod" "top.pdb"
      ["run1.xtc"] udefW [("ca", [SelItem.strSel "name CA"])] (some [1, 2, 3])
      (by decide) (by decide) (by decide),
   readd_universe_preserves_selections_resnums.2 osW "/loc" hunivsW "prod" "top.pdb"
      ["run1.xtc"] hunivW (by decide)⟩
